/-
  Verification of the rumple motion-planning toolkit:
  the k-d tree nearest-neighbor map (src/nn/mod.rs), the termination
  policies (src/time.rs), the 2D/3D collision worlds (src/env/world2d.rs,
  src/env/world3d.rs) and the RRT planner loop (modelled from the spec,
  since the geo module source is not provided).

  Conventions of the embedding:
  * A Rust node with children `[Option<Box<Node>>; 2]` is modelled by the
    inductive `Tree`, where `Tree.leaf` stands for an absent child (`None`)
    and `Tree.node key value c0 c1` for `Some(Node { key, value, children })`.
    The map root `Option<Node>` is modelled the same way.
  * The `KdKey` trait (dimension, compare, assign, lower_bound, upper_bound)
    is modelled by the structure `KdKeyOps`; the `DistanceAabb`/`Metric`
    traits by `MetricOps`, with distances in a linearly ordered type with a
    zero element (mirroring `Distance: Ord` plus `num_traits::Zero`, whose
    `is_zero` test is modelled as equality with 0).
  * Floating-point world coordinates are modelled by rationals; a
    `debug_assert!` is modelled by returning `none` (respectively a
    dedicated panic marker) when the asserted condition fails.
-/
import Mathlib

namespace Rumple

/-- A k-d tree: `leaf` models an absent node (`None` in the source), and
`node key value c0 c1` models `Node { key, value, children: [c0, c1] }`,
where `children[0]` is the left child and `children[1]` the right child. -/
inductive Tree (K V : Type) : Type where
  | leaf : Tree K V
  | node (key : K) (value : V) (c0 c1 : Tree K V) : Tree K V
deriving DecidableEq

/-- The `KdKey` trait of src/nn/mod.rs: dimension of the space, per-axis
comparison, per-axis assignment, and extremal configurations. -/
structure KdKeyOps (K : Type) where
  dimension : Nat
  compare : K → K → Nat → Ordering
  assign : K → K → Nat → K
  lower_bound : K
  upper_bound : K

/-- The `Metric` plus `DistanceAabb` traits: distance between
configurations and a distance from a point to an axis-aligned box. -/
structure MetricOps (K D : Type) where
  distance : K → K → D
  distance_to_aabb : K → K → K → D

variable {K V D : Type}

namespace Tree

/-- The entries of a tree, root entry first, then the left subtree and the
right subtree. -/
def entries : Tree K V → List (K × V)
  | .leaf => []
  | .node k v c0 c1 => (k, v) :: (c0.entries ++ c1.entries)

/-- `KdTreeMap::insert` of src/nn/mod.rs, written recursively: at a node,
the insertion descends to `children[1]` (right) when
`parent.key.compare(&key, k).is_le()` and to `children[0]` (left)
otherwise, cycling the axis modulo the dimension; the first absent child
slot along the descent receives the new leaf node. -/
def insert (ops : KdKeyOps K) (key : K) (v : V) : Tree K V → Nat → Tree K V
  | .leaf, _ => .node key v .leaf .leaf
  | .node nk nv c0 c1, k =>
    if (ops.compare nk key k).isLE then
      .node nk nv c0 (insert ops key v c1 ((k + 1) % ops.dimension))
    else
      .node nk nv (insert ops key v c0 ((k + 1) % ops.dimension)) c1

end Tree

/-- `KdTreeMap` of src/nn/mod.rs; the `root: Option<Node<K, V>>` field is
modelled by a `Tree` whose `leaf` stands for `None`. The metric is passed
to the operations explicitly rather than stored. -/
structure KdTreeMap (K V : Type) where
  root : Tree K V

/-- `KdTreeMap::new`: the empty map. -/
def KdTreeMap.new : KdTreeMap K V := ⟨Tree.leaf⟩

/-- `NearestNeighborsMap::insert` for `KdTreeMap`. -/
def KdTreeMap.insert (ops : KdKeyOps K) (t : KdTreeMap K V) (key : K) (v : V) :
    KdTreeMap K V :=
  ⟨t.root.insert ops key v 0⟩

/-- The map obtained by inserting the listed entries, in order, into the
empty map. -/
def buildTree (ops : KdKeyOps K) (l : List (K × V)) : KdTreeMap K V :=
  l.foldl (fun t e => t.insert ops e.1 e.2) KdTreeMap.new

/-- The entries currently stored in a map. -/
def KdTreeMap.entries (t : KdTreeMap K V) : List (K × V) :=
  t.root.entries

section Nearest

variable [LinearOrder D] [Zero D]

/-- The block repeated for each child in `KdTreeMap::nearest_help`
(src/nn/mod.rs lines 204-213 and 226-235): compare the distance of the
child key with the running radius; on an improvement record the child as
the best result and shrink the radius, and when the new radius is zero
request an early exit (`return best_result`). Returns the updated best
result, the updated radius, and the early-exit flag. -/
def ballCheck (m : MetricOps K D) (ck : K) (cv : V) (key : K)
    (best : Option (K × V)) (radius : D) : Option (K × V) × D × Bool :=
  let cdist := m.distance ck key
  if cdist ≤ radius then
    if cdist = 0 then (some (ck, cv), cdist, true)
    else (some (ck, cv), cdist, false)
  else (best, radius, false)

/- `KdTreeMap::nearest_help` of src/nn/mod.rs. The mutable
`radius: &mut Distance` and `best_result` are threaded through the return
values; the two `return best_result` early exits inside the child blocks
are encoded with the boolean flag produced by `ballCheck`. `nearPhase` is
the `children[0]` block (the near child, visited with the region
unchanged, the recursive result or-ed onto the running best), `farPhase`
the `children[1]` block (the far child, whose own key is checked first and
whose subtree is only descended when `distance_to_aabb(key, reg_lo,
reg_hi)` for the shrunk region is strictly below the current radius).
`nearestHelp` picks the near child as the side the query falls on
(`is_right = node.key.compare(key, k).is_le()`), runs the two blocks in
order, and shrinks the far region on axis `k` to the node key: the high
corner when the query fell right, the low corner otherwise. The shrink is
computed before entering the far block rather than inside its
`if let Some(child)`; with an absent far child the shrunk region is simply
unused, so the two formulations agree. `radius.is_zero()` is modelled as
equality with `0`. -/
mutual

/-- Main recursion of `KdTreeMap::nearest_help`; see the comment above. -/
def nearestHelp (ops : KdKeyOps K) (m : MetricOps K D) :
    Tree K V → K → K → K → D → Nat → Option (K × V) × D
  | .leaf, _, _, _, radius, _ => (none, radius)
  | .node nk _ c0 c1, key, reg_lo, reg_hi, radius, k =>
    let is_right := (ops.compare nk key k).isLE
    let s1 := nearPhase ops m (if is_right then c1 else c0) key reg_lo reg_hi
      radius ((k + 1) % ops.dimension)
    if s1.2.2 then (s1.1, s1.2.1)
    else
      let rl := if is_right then reg_lo else ops.assign reg_lo nk k
      let rh := if is_right then ops.assign reg_hi nk k else reg_hi
      farPhase ops m (if is_right then c0 else c1) key rl rh s1.1 s1.2.1
        ((k + 1) % ops.dimension)
  termination_by t _ _ _ _ _ => ((sizeOf t, 0) : Nat ×ₗ Nat)
  decreasing_by
    all_goals apply Prod.Lex.left
    all_goals split <;> simp_arith

/-- The near-child block of `nearest_help` (src/nn/mod.rs lines 204-225):
check the child key against the radius (with an early exit at radius
zero), then recurse into the child with the region unchanged, or-ing the
recursive best onto the block-local best. -/
def nearPhase (ops : KdKeyOps K) (m : MetricOps K D) :
    Tree K V → K → K → K → D → Nat → Option (K × V) × D × Bool
  | .leaf, _, _, _, radius, _ => (none, radius, false)
  | .node ck cv cc0 cc1, key, reg_lo, reg_hi, radius, k2 =>
    let u := ballCheck m ck cv key none radius
    if u.2.2 then u
    else
      let p := nearestHelp ops m (.node ck cv cc0 cc1) key reg_lo reg_hi u.2.1 k2
      (p.1.orElse (fun _ => u.1), p.2, false)
  termination_by t _ _ _ _ _ => ((sizeOf t, 1) : Nat ×ₗ Nat)
  decreasing_by
    all_goals exact Prod.Lex.right _ Nat.zero_lt_one

/-- The far-child block of `nearest_help` (src/nn/mod.rs lines 226-247):
check the child key against the radius (with an early exit at radius
zero), then recurse into the child over the shrunk region only when the
distance from the query to that region is strictly below the radius. -/
def farPhase (ops : KdKeyOps K) (m : MetricOps K D) :
    Tree K V → K → K → K → Option (K × V) → D → Nat → Option (K × V) × D
  | .leaf, _, _, _, best, radius, _ => (best, radius)
  | .node ck cv cc0 cc1, key, rl, rh, best, radius, k2 =>
    let u := ballCheck m ck cv key best radius
    if u.2.2 then (u.1, u.2.1)
    else if m.distance_to_aabb key rl rh < u.2.1 then
      let p := nearestHelp ops m (.node ck cv cc0 cc1) key rl rh u.2.1 k2
      (p.1.orElse (fun _ => u.1), p.2)
    else (u.1, u.2.1)
  termination_by t _ _ _ _ _ _ => ((sizeOf t, 1) : Nat ×ₗ Nat)
  decreasing_by
    all_goals exact Prod.Lex.right _ Nat.zero_lt_one

end

/-- `KdTreeMap::nearest` of src/nn/mod.rs: on an absent root return
`None`; otherwise start from the distance of the root key to the query,
short-circuit on a zero distance, run the branch-and-bound helper on the
whole space region `[lower_bound, upper_bound]`, and fall back to the root
when the helper improves on nothing. -/
def KdTreeMap.nearest (ops : KdKeyOps K) (m : MetricOps K D) (t : KdTreeMap K V)
    (key : K) : Option (K × V) :=
  match t.root with
  | .leaf => none
  | .node rk rv rc0 rc1 =>
    let radius := m.distance rk key
    if radius = 0 then some (rk, rv)
    else
      let p := nearestHelp ops m (.node rk rv rc0 rc1) key ops.lower_bound
        ops.upper_bound radius 0
      some (p.1.getD (rk, rv))

/-- `KdTreeMap::nearest_r_help` of src/nn/mod.rs. The buffer of pushed
values is returned as a list: the node value first when its key lies
within `radius` of the query (`is_lt` on the comparison is modelled as
equality with `Ordering.lt`), then the values collected under the near
child (the side the query falls on, visited with the region unchanged),
then the values collected under the far child, whose region is first
shrunk on axis `k` (the low corner when the query fell left, the high
corner otherwise) and which is visited only when
`distance_to_aabb(point, reg_lo, reg_hi)` is at most the radius. An
absent child contributes the empty buffer, so the region shrink and the
pruning test are hoisted out of the source's `if let Some(child)`:
with an absent far child both formulations yield the empty buffer. -/
def nearestRHelp (ops : KdKeyOps K) (m : MetricOps K D) (point : K) (radius : D) :
    Tree K V → K → K → Nat → List V
  | .leaf, _, _, _ => []
  | .node nk nv c0 c1, reg_lo, reg_hi, k =>
    let here := if m.distance point nk ≤ radius then [nv] else []
    let is_left := (ops.compare point nk k) = .lt
    let nearPart := nearestRHelp ops m point radius (if is_left then c0 else c1)
      reg_lo reg_hi ((k + 1) % ops.dimension)
    let rl := if is_left then ops.assign reg_lo nk k else reg_lo
    let rh := if is_left then reg_hi else ops.assign reg_hi nk k
    let farPart :=
      if m.distance_to_aabb point rl rh ≤ radius then
        nearestRHelp ops m point radius (if is_left then c1 else c0) rl rh
          ((k + 1) % ops.dimension)
      else []
    here ++ nearPart ++ farPart
  termination_by t _ _ _ => sizeOf t
  decreasing_by
    all_goals split <;> simp_arith

/-- `KdTreeMap::nearest_within_r` of src/nn/mod.rs: run the radius helper
from the root over the whole space region; the `RangeNearest` iterator
then pops the collected buffer, so the values are yielded in reverse push
order. -/
def KdTreeMap.nearestWithinR (ops : KdKeyOps K) (m : MetricOps K D)
    (t : KdTreeMap K V) (key : K) (r : D) : List V :=
  (nearestRHelp ops m key r t.root ops.lower_bound ops.upper_bound 0).reverse

end Nearest

/-- Membership of a configuration in the closed axis-aligned region
`[lo, hi]`, axis by axis, expressed with the per-axis comparison of the
`KdKey` trait. -/
def inRegion (ops : KdKeyOps K) (x lo hi : K) : Prop :=
  ∀ k, k < ops.dimension → (ops.compare lo x k).isLE = true ∧
    (ops.compare x hi k).isLE = true

/-- The contract assumed of a `KdKey` instance and of a metric with
`distance_to_aabb`, per the spec (section 4.1 and the data-model section):
the dimension is at least 1; the per-axis comparison is a lawful `Ord`
(antisymmetric under swapping the arguments); `assign` replaces exactly
axis `k`; `lower_bound`/`upper_bound` bound every configuration on every
axis; the metric is non-negative (its designated zero is least) and
symmetric; and `distance_to_aabb(p, lo, hi)` lower-bounds `distance(p, q)`
for every `q` in `[lo, hi]`. -/
structure KdLaws [LinearOrder D] [Zero D] (ops : KdKeyOps K) (m : MetricOps K D) :
    Prop where
  dim_pos : 0 < ops.dimension
  compare_swap : ∀ a b k, k < ops.dimension →
    ops.compare a b k = (ops.compare b a k).swap
  assign_fst : ∀ a b x k j, k < ops.dimension → j < ops.dimension →
    ops.compare (ops.assign a b k) x j = ops.compare (if j = k then b else a) x j
  assign_snd : ∀ a b x k j, k < ops.dimension → j < ops.dimension →
    ops.compare x (ops.assign a b k) j = ops.compare x (if j = k then b else a) j
  bounds_mem : ∀ x, inRegion ops x ops.lower_bound ops.upper_bound
  dist_nonneg : ∀ a b, (0 : D) ≤ m.distance a b
  dist_symm : ∀ a b, m.distance a b = m.distance b a
  aabb_lower : ∀ p lo hi q, inRegion ops q lo hi →
    m.distance_to_aabb p lo hi ≤ m.distance p q

/-- The k-d ordering invariant, phrased as in the spec: at a node with
splitting axis `k`, every key in the left child (`children[0]`) compares
strictly less than the node key on axis `k`, every key in the right child
(`children[1]`) compares greater-or-equal, and the children satisfy the
invariant at axis `(k + 1) mod dimension`. -/
def kdInv (ops : KdKeyOps K) : Tree K V → Nat → Prop
  | .leaf, _ => True
  | .node nk _ c0 c1, k =>
    (∀ e ∈ c0.entries, ops.compare e.1 nk k = .lt) ∧
    (∀ e ∈ c1.entries, (ops.compare e.1 nk k).isGE = true) ∧
    kdInv ops c0 ((k + 1) % ops.dimension) ∧
    kdInv ops c1 ((k + 1) % ops.dimension)

theorem Ordering.swap_isLE (o : Ordering) : o.swap.isLE = o.isGE := by
  cases o <;> rfl

theorem Ordering.swap_isGE (o : Ordering) : o.swap.isGE = o.isLE := by
  cases o <;> rfl

theorem Ordering.swap_eq_lt (o : Ordering) : (o.swap = .lt) = (o = .gt) := by
  cases o <;> simp [Ordering.swap]

theorem Ordering.lt_isLE (o : Ordering) (h : o = .lt) : o.isLE = true := by
  subst h; rfl

/-- Inserting an entry adds exactly that entry: the entry list of the new
tree is a permutation of the new entry consed onto the old entry list. -/
theorem Tree.entries_insert (ops : KdKeyOps K) (key : K) (v : V) :
    ∀ (t : Tree K V) (k : Nat),
      (t.insert ops key v k).entries.Perm ((key, v) :: t.entries) := by
  intro t
  induction t with
  | leaf => intro k; simp [Tree.insert, Tree.entries]
  | node nk nv c0 c1 ih0 ih1 =>
    intro k
    by_cases h : (ops.compare nk key k).isLE
    · simp only [Tree.insert, h, if_pos, Tree.entries]
      exact (List.Perm.cons _ (List.Perm.append_left _
          (ih1 ((k + 1) % ops.dimension)))).trans
        ((List.Perm.cons _ List.perm_middle).trans
          (List.Perm.swap (key, v) (nk, nv) _))
    · simp only [Tree.insert, h, if_neg, not_false_iff, Tree.entries]
      exact (List.Perm.cons _ (List.Perm.append_right _
          (ih0 ((k + 1) % ops.dimension)))).trans
        (List.Perm.swap (key, v) (nk, nv) _)

/-- Folding insertions over a starting map appends (up to permutation) the
inserted entries to the stored ones. -/
theorem entries_foldl_insert (ops : KdKeyOps K) :
    ∀ (l : List (K × V)) (t : KdTreeMap K V),
      ((l.foldl (fun t e => t.insert ops e.1 e.2) t).entries).Perm
        (t.entries ++ l) := by
  intro l
  induction l with
  | nil => intro t; simp
  | cons e l ih =>
    intro t
    refine ((ih _).trans ?_)
    have h2 : (t.insert ops e.1 e.2).entries.Perm (e :: t.entries) :=
      Tree.entries_insert ops e.1 e.2 t.root 0
    exact ((List.Perm.append_right l h2).trans List.perm_middle.symm)

/-- The entries of `buildTree l` are a permutation of `l`. -/
theorem entries_buildTree (ops : KdKeyOps K) (l : List (K × V)) :
    (buildTree ops l).entries.Perm l := by
  have h := entries_foldl_insert ops l KdTreeMap.new
  simpa [KdTreeMap.entries, KdTreeMap.new, Tree.entries] using h

theorem Ordering.eq_gt_of_not_isLE (o : Ordering) (h : ¬ o.isLE = true) :
    o = .gt := by
  cases o <;> simp_all [Ordering.isLE]

/-- A single insertion preserves the k-d ordering invariant, provided the
per-axis comparison is antisymmetric under argument swap. -/
theorem kdInv_insert (ops : KdKeyOps K) (hdim : 0 < ops.dimension)
    (hswap : ∀ a b k, k < ops.dimension →
      ops.compare a b k = (ops.compare b a k).swap)
    (key : K) (v : V) :
    ∀ (t : Tree K V) (k : Nat), k < ops.dimension → kdInv ops t k →
      kdInv ops (t.insert ops key v k) k := by
  intro t
  induction t with
  | leaf => intro k _ _; simp [Tree.insert, kdInv, Tree.entries]
  | node nk nv c0 c1 ih0 ih1 =>
    intro k hk hinv
    obtain ⟨hl, hr, hi0, hi1⟩ := hinv
    by_cases h : (ops.compare nk key k).isLE = true
    · simp only [Tree.insert, h, if_pos, kdInv]
      refine ⟨hl, ?_, hi0, ih1 _ (Nat.mod_lt _ hdim) hi1⟩
      intro e he
      have hperm := Tree.entries_insert ops key v c1 ((k + 1) % ops.dimension)
      rcases List.mem_cons.mp (hperm.mem_iff.mp he) with rfl | hmem
      · rw [hswap key nk k hk, Ordering.swap_isGE]; exact h
      · exact hr e hmem
    · simp only [Tree.insert, h, if_neg, not_false_iff, kdInv]
      refine ⟨?_, hr, ih0 _ (Nat.mod_lt _ hdim) hi0, hi1⟩
      intro e he
      have hperm := Tree.entries_insert ops key v c0 ((k + 1) % ops.dimension)
      rcases List.mem_cons.mp (hperm.mem_iff.mp he) with rfl | hmem
      · rw [hswap key nk k hk, Ordering.swap_eq_lt]
        exact Ordering.eq_gt_of_not_isLE _ h
      · exact hl e hmem

/-- After any sequence of insertions into the empty map, the root satisfies
the k-d ordering invariant at axis 0. -/
theorem kdInv_buildTree (ops : KdKeyOps K) (hdim : 0 < ops.dimension)
    (hswap : ∀ a b k, k < ops.dimension →
      ops.compare a b k = (ops.compare b a k).swap)
    (l : List (K × V)) : kdInv ops (buildTree ops l).root 0 := by
  suffices h : ∀ (l : List (K × V)) (t : KdTreeMap K V), kdInv ops t.root 0 →
      kdInv ops ((l.foldl (fun t e => t.insert ops e.1 e.2) t).root) 0 by
    exact h l KdTreeMap.new trivial
  intro l
  induction l with
  | nil => intro t ht; exact ht
  | cons e l ih =>
    intro t ht
    exact ih _ (kdInv_insert ops hdim hswap e.1 e.2 t.root 0 hdim ht)

section NearestSpec

variable [LinearOrder D] [Zero D]

/-- Shrinking the high corner of a region to the node key on the split
axis keeps every configuration that compares at most the node key on that
axis. -/
theorem inRegion_shrink_hi {ops : KdKeyOps K} {m : MetricOps K D}
    (laws : KdLaws ops m) {x lo hi nk : K} {k : Nat} (hk : k < ops.dimension)
    (hx : inRegion ops x lo hi) (hcmp : (ops.compare x nk k).isLE = true) :
    inRegion ops x lo (ops.assign hi nk k) := by
  intro j hj
  obtain ⟨h1, h2⟩ := hx j hj
  refine ⟨h1, ?_⟩
  rw [laws.assign_snd hi nk x k j hk hj]
  by_cases hjk : j = k
  · subst hjk; simp only [if_pos]; exact hcmp
  · simp only [hjk, if_neg, not_false_iff]; exact h2

/-- Shrinking the low corner of a region to the node key on the split axis
keeps every configuration that the node key compares at most on that
axis. -/
theorem inRegion_shrink_lo {ops : KdKeyOps K} {m : MetricOps K D}
    (laws : KdLaws ops m) {x lo hi nk : K} {k : Nat} (hk : k < ops.dimension)
    (hx : inRegion ops x lo hi) (hcmp : (ops.compare nk x k).isLE = true) :
    inRegion ops x (ops.assign lo nk k) hi := by
  intro j hj
  obtain ⟨h1, h2⟩ := hx j hj
  refine ⟨?_, h2⟩
  rw [laws.assign_fst lo nk x k j hk hj]
  by_cases hjk : j = k
  · subst hjk; simp only [if_pos]; exact hcmp
  · simp only [hjk, if_neg, not_false_iff]; exact h1

/-- What the repeated child block of `nearest_help` guarantees: the radius
never grows, stays below the distance of the inspected child key, the best
result is either the inspected child at distance equal to the new radius
or the unchanged incoming best, and an early exit happens only at radius
zero. -/
theorem ballCheck_spec (m : MetricOps K D) (ck : K) (cv : V) (key : K)
    (best : Option (K × V)) (radius : D) {b' : Option (K × V)} {r' : D}
    {e' : Bool} (h : ballCheck m ck cv key best radius = (b', r', e')) :
    r' ≤ radius ∧ r' ≤ m.distance ck key ∧
      ((b' = some (ck, cv) ∧ m.distance ck key = r') ∨
        (b' = best ∧ r' = radius)) ∧
      (e' = true → r' = 0) := by
  simp only [ballCheck] at h
  split_ifs at h with h1 h2 <;> simp only [Prod.mk.injEq] at h <;>
    obtain ⟨rfl, rfl, rfl⟩ := h
  · exact ⟨h1, le_refl _, Or.inl ⟨rfl, rfl⟩, fun _ => h2⟩
  · exact ⟨h1, le_refl _, Or.inl ⟨rfl, rfl⟩, fun hc => Bool.noConfusion hc⟩
  · exact ⟨le_refl _, le_of_lt (lt_of_not_le h1), Or.inr ⟨rfl, rfl⟩,
      fun hc => Bool.noConfusion hc⟩

/-- The statement proved about `nearestHelp` for every tree of size at
most `n` (the induction is on `n`): under the k-d invariant, with every
entry of the tree inside the region `[reg_lo, reg_hi]`, with a valid axis,
and with the incoming radius at most the distance from the node key to the
query, the returned radius never exceeds the incoming one, lower-bounds
every entry distance in the subtree, and is realised by the returned best
entry (or the result is `none` and the radius is unchanged). -/
def NearSpecOk (ops : KdKeyOps K) (m : MetricOps K D) (V : Type) (n : Nat) :
    Prop :=
  ∀ (t : Tree K V), sizeOf t ≤ n →
    ∀ (key reg_lo reg_hi : K) (radius : D) (k : Nat) (res : Option (K × V))
      (r2 : D),
      kdInv ops t k →
      (∀ e ∈ t.entries, inRegion ops e.1 reg_lo reg_hi) →
      k < ops.dimension →
      (∀ tk tv tc0 tc1, t = Tree.node tk tv tc0 tc1 →
        radius ≤ m.distance tk key) →
      nearestHelp ops m t key reg_lo reg_hi radius k = (res, r2) →
      r2 ≤ radius ∧ (∀ e ∈ t.entries, r2 ≤ m.distance e.1 key) ∧
        ((∃ kv, res = some kv ∧ kv ∈ t.entries ∧ m.distance kv.1 key = r2) ∨
          (res = none ∧ r2 = radius))

/-- Specification of the near-child block, assuming the specification of
`nearestHelp` for trees of size at most `n`. -/
theorem nearPhase_spec (ops : KdKeyOps K) (m : MetricOps K D)
    (laws : KdLaws ops m) {n : Nat} (hIH : NearSpecOk ops m V n)
    (t : Tree K V) (hsz : sizeOf t ≤ n) (key reg_lo reg_hi : K) (radius : D)
    (k2 : Nat) (hinv : kdInv ops t k2)
    (hreg : ∀ e ∈ t.entries, inRegion ops e.1 reg_lo reg_hi)
    (hk2 : k2 < ops.dimension) {b1 : Option (K × V)} {r1 : D} {e1 : Bool}
    (heq : nearPhase ops m t key reg_lo reg_hi radius k2 = (b1, r1, e1)) :
    r1 ≤ radius ∧ (∀ e ∈ t.entries, r1 ≤ m.distance e.1 key) ∧
      ((∃ kv, b1 = some kv ∧ kv ∈ t.entries ∧ m.distance kv.1 key = r1) ∨
        (b1 = none ∧ r1 = radius)) ∧
      (e1 = true → r1 = 0) := by
  cases t with
  | leaf =>
    simp only [nearPhase, Prod.mk.injEq] at heq
    obtain ⟨rfl, rfl, rfl⟩ := heq
    exact ⟨le_refl _, by simp [Tree.entries], Or.inr ⟨rfl, rfl⟩,
      fun hc => Bool.noConfusion hc⟩
  | node ck cv cc0 cc1 =>
    simp only [nearPhase] at heq
    rcases hU : ballCheck m ck cv key none radius with ⟨ub, ur, ue⟩
    rw [hU] at heq
    obtain ⟨hur_le, hur_ck, hub, hue0⟩ := ballCheck_spec m ck cv key none radius hU
    have hckmem : (ck, cv) ∈ (Tree.node ck cv cc0 cc1).entries := by
      simp [Tree.entries]
    cases ue with
    | true =>
      simp only [Prod.mk.injEq] at heq
      obtain ⟨rfl, rfl, rfl⟩ := heq
      have h0 : r1 = 0 := hue0 rfl
      refine ⟨hur_le, ?_, ?_, fun _ => h0⟩
      · intro e _
        exact h0 ▸ laws.dist_nonneg e.1 key
      · rcases hub with ⟨rfl, hd⟩ | ⟨rfl, rfl⟩
        · exact Or.inl ⟨(ck, cv), rfl, hckmem, hd⟩
        · exact Or.inr ⟨rfl, rfl⟩
    | false =>
      rcases hP : nearestHelp ops m (.node ck cv cc0 cc1) key reg_lo reg_hi ur k2
        with ⟨pres, prad⟩
      rw [hP] at heq
      have hrootb : ∀ tk tv tc0 tc1,
          Tree.node ck cv cc0 cc1 = Tree.node tk tv tc0 tc1 →
          ur ≤ m.distance tk key := by
        intro tk tv tc0 tc1 hmk
        obtain ⟨rfl, rfl, rfl, rfl⟩ := Tree.node.injEq .. ▸ hmk
        exact hur_ck
      obtain ⟨hp_le, hp_all, hp_res⟩ :=
        hIH (.node ck cv cc0 cc1) hsz key reg_lo reg_hi ur k2 pres prad hinv hreg
          hk2 hrootb hP
      simp only [Prod.mk.injEq] at heq
      obtain ⟨rfl, rfl, rfl⟩ := heq
      refine ⟨le_trans hp_le hur_le, hp_all, ?_, fun hc => Bool.noConfusion hc⟩
      rcases pres with _ | kv
      · rcases hp_res with ⟨kv, hkv, _⟩ | ⟨_, rfl⟩
        · exact Option.noConfusion hkv
        · rcases hub with ⟨rfl, hd⟩ | ⟨rfl, rfl⟩
          · exact Or.inl ⟨(ck, cv), rfl, hckmem, hd⟩
          · exact Or.inr ⟨rfl, rfl⟩
      · rcases hp_res with ⟨kv2, hkv2, hmem2, hd2⟩ | ⟨hc, _⟩
        · exact Or.inl ⟨kv2, hkv2, hmem2, hd2⟩
        · exact Option.noConfusion hc

/-- Specification of the far-child block, assuming the specification of
`nearestHelp` for trees of size at most `n`. `Q` abstracts what is known
about an incoming best entry (in the caller it is membership in the near
subtree); the incoming best, when present, realises the incoming radius.
The far subtree may be pruned: soundness of the pruning rests on
`distance_to_aabb` lower-bounding the distance to every entry inside the
shrunk region `[rl, rh]`. -/
theorem farPhase_spec (ops : KdKeyOps K) (m : MetricOps K D)
    (laws : KdLaws ops m) {n : Nat} (hIH : NearSpecOk ops m V n)
    (t : Tree K V) (hsz : sizeOf t ≤ n) (key rl rh : K)
    (best : Option (K × V)) (radius : D) (k2 : Nat) (Q : K × V → Prop)
    (hinv : kdInv ops t k2)
    (hreg : ∀ e ∈ t.entries, inRegion ops e.1 rl rh)
    (hk2 : k2 < ops.dimension)
    (hbest : (∃ kv, best = some kv ∧ Q kv ∧ m.distance kv.1 key = radius) ∨
      best = none)
    {res : Option (K × V)} {r2 : D}
    (heq : farPhase ops m t key rl rh best radius k2 = (res, r2)) :
    r2 ≤ radius ∧ (∀ e ∈ t.entries, r2 ≤ m.distance e.1 key) ∧
      ((∃ kv, res = some kv ∧ (kv ∈ t.entries ∨ Q kv) ∧
          m.distance kv.1 key = r2) ∨
        (res = none ∧ best = none ∧ r2 = radius)) := by
  cases t with
  | leaf =>
    simp only [farPhase, Prod.mk.injEq] at heq
    obtain ⟨rfl, rfl⟩ := heq
    refine ⟨le_refl _, by simp [Tree.entries], ?_⟩
    rcases hbest with ⟨kv, rfl, hq, hd⟩ | rfl
    · exact Or.inl ⟨kv, rfl, Or.inr hq, hd⟩
    · exact Or.inr ⟨rfl, rfl, rfl⟩
  | node ck cv cc0 cc1 =>
    simp only [farPhase] at heq
    rcases hU : ballCheck m ck cv key best radius with ⟨ub, ur, ue⟩
    rw [hU] at heq
    obtain ⟨hur_le, hur_ck, hub, hue0⟩ := ballCheck_spec m ck cv key best radius hU
    have hckmem : (ck, cv) ∈ (Tree.node ck cv cc0 cc1).entries := by
      simp [Tree.entries]
    have hub_fact : (∃ kv, ub = some kv ∧
        ((kv ∈ (Tree.node ck cv cc0 cc1).entries ∨ Q kv) ∧
          m.distance kv.1 key = ur)) ∨ (ub = none ∧ ub = best ∧ ur = radius) := by
      rcases hub with ⟨rfl, hd⟩ | ⟨rfl, rfl⟩
      · exact Or.inl ⟨(ck, cv), rfl, Or.inl hckmem, hd⟩
      · rcases hbest with ⟨kv, rfl, hq, hd⟩ | rfl
        · exact Or.inl ⟨kv, rfl, Or.inr hq, hd⟩
        · exact Or.inr ⟨rfl, rfl, rfl⟩
    cases ue with
    | true =>
      simp only [Prod.mk.injEq] at heq
      obtain ⟨rfl, rfl⟩ := heq
      have h0 : r2 = 0 := hue0 rfl
      refine ⟨hur_le, ?_, ?_⟩
      · intro e _
        exact h0 ▸ laws.dist_nonneg e.1 key
      · rcases hub_fact with ⟨kv, rfl, hq, hd⟩ | ⟨rfl, hbe, rfl⟩
        · exact Or.inl ⟨kv, rfl, hq, hd⟩
        · exact Or.inr ⟨rfl, hbe.symm, rfl⟩
    | false =>
      by_cases hprune : m.distance_to_aabb key rl rh < ur
      · rw [if_pos hprune] at heq
        rcases hP : nearestHelp ops m (.node ck cv cc0 cc1) key rl rh ur k2
          with ⟨pres, prad⟩
        rw [hP] at heq
        have hrootb : ∀ tk tv tc0 tc1,
            Tree.node ck cv cc0 cc1 = Tree.node tk tv tc0 tc1 →
            ur ≤ m.distance tk key := by
          intro tk tv tc0 tc1 hmk
          obtain ⟨rfl, rfl, rfl, rfl⟩ := Tree.node.injEq .. ▸ hmk
          exact hur_ck
        obtain ⟨hp_le, hp_all, hp_res⟩ :=
          hIH (.node ck cv cc0 cc1) hsz key rl rh ur k2 pres prad hinv hreg
            hk2 hrootb hP
        simp only [Prod.mk.injEq] at heq
        obtain ⟨rfl, rfl⟩ := heq
        refine ⟨le_trans hp_le hur_le, hp_all, ?_⟩
        rcases pres with _ | kv
        · rcases hp_res with ⟨kv, hkv, _⟩ | ⟨_, rfl⟩
          · exact Option.noConfusion hkv
          · rcases hub_fact with ⟨kv, rfl, hq, hd⟩ | ⟨rfl, hbe, rfl⟩
            · exact Or.inl ⟨kv, rfl, hq, hd⟩
            · exact Or.inr ⟨rfl, hbe.symm, rfl⟩
        · rcases hp_res with ⟨kv2, hkv2, hmem2, hd2⟩ | ⟨hc, _⟩
          · exact Or.inl ⟨kv2, hkv2, Or.inl hmem2, hd2⟩
          · exact Option.noConfusion hc
      · rw [if_neg hprune] at heq
        simp only [Prod.mk.injEq] at heq
        obtain ⟨rfl, rfl⟩ := heq
        have hfar : ∀ e ∈ (Tree.node ck cv cc0 cc1).entries,
            r2 ≤ m.distance e.1 key := by
          intro e he
          have h1 := laws.aabb_lower key rl rh e.1 (hreg e he)
          calc r2 ≤ m.distance_to_aabb key rl rh := not_lt.mp hprune
            _ ≤ m.distance key e.1 := h1
            _ = m.distance e.1 key := laws.dist_symm key e.1
        refine ⟨hur_le, hfar, ?_⟩
        rcases hub_fact with ⟨kv, rfl, hq, hd⟩ | ⟨rfl, hbe, rfl⟩
        · exact Or.inl ⟨kv, rfl, hq, hd⟩
        · exact Or.inr ⟨rfl, hbe.symm, rfl⟩

/-- The branch-and-bound helper meets its specification on every tree, by
strong induction on the tree size. -/
theorem nearestHelp_spec (ops : KdKeyOps K) (m : MetricOps K D)
    (laws : KdLaws ops m) : ∀ n : Nat, NearSpecOk ops m V n := by
  intro n
  induction n with
  | zero =>
    intro t hsz
    cases t <;> simp at hsz
  | succ n ih =>
    intro t hsz key reg_lo reg_hi radius k res r2 hinv hreg hk hroot heq
    cases t with
    | leaf =>
      simp only [nearestHelp, Prod.mk.injEq] at heq
      obtain ⟨rfl, rfl⟩ := heq
      exact ⟨le_refl _, by simp [Tree.entries], Or.inr ⟨rfl, rfl⟩⟩
    | node nk nv c0 c1 =>
      simp only [kdInv] at hinv
      obtain ⟨hl, hr, hi0, hi1⟩ := hinv
      have hroot2 : radius ≤ m.distance nk key := hroot nk nv c0 c1 rfl
      have hknext : (k + 1) % ops.dimension < ops.dimension :=
        Nat.mod_lt _ laws.dim_pos
      have hszc0 : sizeOf c0 ≤ n := by
        simp only [Tree.node.sizeOf_spec] at hsz; omega
      have hszc1 : sizeOf c1 ≤ n := by
        simp only [Tree.node.sizeOf_spec] at hsz; omega
      have hmem0 : ∀ e ∈ c0.entries, e ∈ (Tree.node nk nv c0 c1).entries := by
        intro e he
        simp only [Tree.entries, List.mem_cons, List.mem_append]
        exact Or.inr (Or.inl he)
      have hmem1 : ∀ e ∈ c1.entries, e ∈ (Tree.node nk nv c0 c1).entries := by
        intro e he
        simp only [Tree.entries, List.mem_cons, List.mem_append]
        exact Or.inr (Or.inr he)
      have hentry : ∀ (r : D), r ≤ radius →
          (∀ e ∈ c0.entries, r ≤ m.distance e.1 key) →
          (∀ e ∈ c1.entries, r ≤ m.distance e.1 key) →
          ∀ e ∈ (Tree.node nk nv c0 c1).entries, r ≤ m.distance e.1 key := by
        intro r h0 h1c h2c e he
        simp only [Tree.entries, List.mem_cons, List.mem_append] at he
        rcases he with rfl | he | he
        · exact le_trans h0 hroot2
        · exact h1c e he
        · exact h2c e he
      simp only [nearestHelp] at heq
      by_cases hIR : (ops.compare nk key k).isLE = true
      · simp only [hIR, if_pos] at heq
        rcases hS1 : nearPhase ops m c1 key reg_lo reg_hi radius
          ((k + 1) % ops.dimension) with ⟨b1, r1, e1⟩
        rw [hS1] at heq
        obtain ⟨hr1_rad, hr1_near, hb1, he1⟩ :=
          nearPhase_spec ops m laws ih c1 hszc1 key reg_lo reg_hi radius _ hi1
            (fun e he => hreg e (hmem1 e he)) hknext hS1
        cases e1 with
        | true =>
          simp only [Prod.mk.injEq] at heq
          obtain ⟨rfl, rfl⟩ := heq
          have h0 : r2 = 0 := he1 rfl
          refine ⟨hr1_rad, hentry r2 hr1_rad
            (fun e _ => h0 ▸ laws.dist_nonneg e.1 key) hr1_near, ?_⟩
          rcases hb1 with ⟨kv, rfl, hmem, hd⟩ | ⟨rfl, rfl⟩
          · exact Or.inl ⟨kv, rfl, hmem1 kv hmem, hd⟩
          · exact Or.inr ⟨rfl, rfl⟩
        | false =>
          simp only [Bool.false_eq_true, if_false] at heq
          have hregfar : ∀ e ∈ c0.entries,
              inRegion ops e.1 reg_lo (ops.assign reg_hi nk k) := by
            intro e he
            exact inRegion_shrink_hi laws hk (hreg e (hmem0 e he))
              (Ordering.lt_isLE _ (hl e he))
          obtain ⟨h2a, h2b, h2c⟩ :=
            farPhase_spec ops m laws ih c0 hszc0 key reg_lo
              (ops.assign reg_hi nk k) b1 r1 _ (fun kv => kv ∈ c1.entries) hi0
              hregfar hknext
              (by
                rcases hb1 with ⟨kv, rfl, hmem, hd⟩ | ⟨rfl, _⟩
                · exact Or.inl ⟨kv, rfl, hmem, hd⟩
                · exact Or.inr rfl) heq
          refine ⟨le_trans h2a hr1_rad, hentry r2 (le_trans h2a hr1_rad) h2b
            (fun e he => le_trans h2a (hr1_near e he)), ?_⟩
          rcases h2c with ⟨kv, rfl, hmem, hd⟩ | ⟨rfl, hb1none, rfl⟩
          · rcases hmem with hm | hm
            · exact Or.inl ⟨kv, rfl, hmem0 kv hm, hd⟩
            · exact Or.inl ⟨kv, rfl, hmem1 kv hm, hd⟩
          · rcases hb1 with ⟨kv, hkv, _⟩ | ⟨_, rfl⟩
            · exact absurd (hb1none ▸ hkv) (by simp)
            · exact Or.inr ⟨rfl, rfl⟩
      · simp only [hIR, if_neg, not_false_iff, Bool.false_eq_true, if_false] at heq
        rcases hS1 : nearPhase ops m c0 key reg_lo reg_hi radius
          ((k + 1) % ops.dimension) with ⟨b1, r1, e1⟩
        rw [hS1] at heq
        obtain ⟨hr1_rad, hr1_near, hb1, he1⟩ :=
          nearPhase_spec ops m laws ih c0 hszc0 key reg_lo reg_hi radius _ hi0
            (fun e he => hreg e (hmem0 e he)) hknext hS1
        cases e1 with
        | true =>
          simp only [Prod.mk.injEq] at heq
          obtain ⟨rfl, rfl⟩ := heq
          have h0 : r2 = 0 := he1 rfl
          refine ⟨hr1_rad, hentry r2 hr1_rad hr1_near
            (fun e _ => h0 ▸ laws.dist_nonneg e.1 key), ?_⟩
          rcases hb1 with ⟨kv, rfl, hmem, hd⟩ | ⟨rfl, rfl⟩
          · exact Or.inl ⟨kv, rfl, hmem0 kv hmem, hd⟩
          · exact Or.inr ⟨rfl, rfl⟩
        | false =>
          simp only [Bool.false_eq_true, if_false] at heq
          have hregfar : ∀ e ∈ c1.entries,
              inRegion ops e.1 (ops.assign reg_lo nk k) reg_hi := by
            intro e he
            have hswap : (ops.compare nk e.1 k).isLE = true := by
              rw [laws.compare_swap nk e.1 k hk, Ordering.swap_isLE]
              exact hr e he
            exact inRegion_shrink_lo laws hk (hreg e (hmem1 e he)) hswap
          obtain ⟨h2a, h2b, h2c⟩ :=
            farPhase_spec ops m laws ih c1 hszc1 key (ops.assign reg_lo nk k)
              reg_hi b1 r1 _ (fun kv => kv ∈ c0.entries) hi1 hregfar hknext
              (by
                rcases hb1 with ⟨kv, rfl, hmem, hd⟩ | ⟨rfl, _⟩
                · exact Or.inl ⟨kv, rfl, hmem, hd⟩
                · exact Or.inr rfl) heq
          refine ⟨le_trans h2a hr1_rad, hentry r2 (le_trans h2a hr1_rad)
            (fun e he => le_trans h2a (hr1_near e he)) h2b, ?_⟩
          rcases h2c with ⟨kv, rfl, hmem, hd⟩ | ⟨rfl, hb1none, rfl⟩
          · rcases hmem with hm | hm
            · exact Or.inl ⟨kv, rfl, hmem1 kv hm, hd⟩
            · exact Or.inl ⟨kv, rfl, hmem0 kv hm, hd⟩
          · rcases hb1 with ⟨kv, hkv, _⟩ | ⟨_, rfl⟩
            · exact absurd (hb1none ▸ hkv) (by simp)
            · exact Or.inr ⟨rfl, rfl⟩

/-- `KdTreeMap::nearest` on a non-empty map satisfying the k-d invariant
returns a stored entry whose distance to the query lower-bounds the
distance of every stored entry. -/
theorem KdTreeMap.nearest_min (ops : KdKeyOps K) (m : MetricOps K D)
    (laws : KdLaws ops m) (t : KdTreeMap K V) (hinv : kdInv ops t.root 0)
    (q : K) (hne : t.root ≠ Tree.leaf) :
    ∃ kv, t.nearest ops m q = some kv ∧ kv ∈ t.entries ∧
      ∀ e ∈ t.entries, m.distance kv.1 q ≤ m.distance e.1 q := by
  obtain ⟨root⟩ := t
  cases root with
  | leaf => exact absurd rfl hne
  | node rk rv rc0 rc1 =>
    have hroothead : (rk, rv) ∈ (Tree.node rk rv rc0 rc1).entries := by
      simp [Tree.entries]
    by_cases h0 : m.distance rk q = 0
    · refine ⟨(rk, rv), ?_, hroothead, ?_⟩
      · simp only [KdTreeMap.nearest, h0, if_pos]
      · intro e _
        calc m.distance rk q = 0 := h0
          _ ≤ m.distance e.1 q := laws.dist_nonneg e.1 q
    · rcases hP : nearestHelp ops m (Tree.node rk rv rc0 rc1) q ops.lower_bound
        ops.upper_bound (m.distance rk q) 0 with ⟨pres, prad⟩
      have hrootb : ∀ tk tv tc0 tc1,
          Tree.node rk rv rc0 rc1 = Tree.node tk tv tc0 tc1 →
          m.distance rk q ≤ m.distance tk q := by
        intro tk tv tc0 tc1 hmk
        obtain ⟨rfl, rfl, rfl, rfl⟩ := Tree.node.injEq .. ▸ hmk
        exact le_refl _
      obtain ⟨hp_le, hp_all, hp_res⟩ :=
        nearestHelp_spec ops m laws (sizeOf (Tree.node rk rv rc0 rc1))
          (Tree.node rk rv rc0 rc1) (le_refl _) q ops.lower_bound
          ops.upper_bound (m.distance rk q) 0 pres prad hinv
          (fun e _ => laws.bounds_mem e.1) laws.dim_pos hrootb hP
      rcases pres with _ | kv
      · obtain rfl : prad = m.distance rk q := by
          rcases hp_res with ⟨kv, hkv, _⟩ | ⟨_, h⟩
          · exact Option.noConfusion hkv
          · exact h
        refine ⟨(rk, rv), ?_, hroothead, hp_all⟩
        simp only [KdTreeMap.nearest, h0, if_neg, not_false_iff, hP]
        rfl
      · rcases hp_res with ⟨kv2, hkv2, hmem2, hd2⟩ | ⟨hc, _⟩
        · refine ⟨kv2, ?_, hmem2, fun e he => hd2 ▸ hp_all e he⟩
          simp only [KdTreeMap.nearest, h0, if_neg, not_false_iff, hP]
          rw [show (some kv).getD (rk, rv) = kv from rfl, ← Option.some_inj.mp hkv2]
        · exact Option.noConfusion hc

/-- The radius-search helper collects exactly (up to permutation) the
values of the entries whose key lies within `radius` of the query point,
by strong induction on the tree size: the near subtree is collected
recursively, and a pruned far subtree contains no entry within the radius
because `distance_to_aabb` lower-bounds every distance into the shrunk
region. -/
theorem nearestRHelp_spec (ops : KdKeyOps K) (m : MetricOps K D)
    (laws : KdLaws ops m) :
    ∀ (n : Nat) (t : Tree K V), sizeOf t ≤ n →
    ∀ (point : K) (radius : D) (reg_lo reg_hi : K) (k : Nat),
      kdInv ops t k →
      (∀ e ∈ t.entries, inRegion ops e.1 reg_lo reg_hi) →
      k < ops.dimension →
      (nearestRHelp ops m point radius t reg_lo reg_hi k).Perm
        ((t.entries.filter
          (fun e => decide (m.distance point e.1 ≤ radius))).map Prod.snd) := by
  intro n
  induction n with
  | zero =>
    intro t hsz
    cases t <;> simp at hsz
  | succ n ih =>
    intro t hsz point radius reg_lo reg_hi k hinv hreg hk
    cases t with
    | leaf => simp [nearestRHelp, Tree.entries]
    | node nk nv c0 c1 =>
      simp only [kdInv] at hinv
      obtain ⟨hl, hr, hi0, hi1⟩ := hinv
      have hknext : (k + 1) % ops.dimension < ops.dimension :=
        Nat.mod_lt _ laws.dim_pos
      have hszc0 : sizeOf c0 ≤ n := by
        simp only [Tree.node.sizeOf_spec] at hsz; omega
      have hszc1 : sizeOf c1 ≤ n := by
        simp only [Tree.node.sizeOf_spec] at hsz; omega
      have hmem0 : ∀ e ∈ c0.entries, e ∈ (Tree.node nk nv c0 c1).entries := by
        intro e he
        simp only [Tree.entries, List.mem_cons, List.mem_append]
        exact Or.inr (Or.inl he)
      have hmem1 : ∀ e ∈ c1.entries, e ∈ (Tree.node nk nv c0 c1).entries := by
        intro e he
        simp only [Tree.entries, List.mem_cons, List.mem_append]
        exact Or.inr (Or.inr he)
      simp only [nearestRHelp, Tree.entries, List.filter_cons, List.filter_append,
        List.map_append]
      by_cases hIL : ops.compare point nk k = Ordering.lt
      · simp only [if_pos hIL]
        have hA := ih c0 hszc0 point radius reg_lo reg_hi
          ((k + 1) % ops.dimension) hi0 (fun e he => hreg e (hmem0 e he)) hknext
        have hB : (if m.distance_to_aabb point (ops.assign reg_lo nk k) reg_hi ≤
              radius then
              nearestRHelp ops m point radius c1 (ops.assign reg_lo nk k) reg_hi
                ((k + 1) % ops.dimension)
            else []).Perm
            ((c1.entries.filter
              (fun e => decide (m.distance point e.1 ≤ radius))).map Prod.snd) := by
          by_cases hprune : m.distance_to_aabb point (ops.assign reg_lo nk k)
              reg_hi ≤ radius
          · rw [if_pos hprune]
            have hregfar : ∀ e ∈ c1.entries,
                inRegion ops e.1 (ops.assign reg_lo nk k) reg_hi := by
              intro e he
              have hswap : (ops.compare nk e.1 k).isLE = true := by
                rw [laws.compare_swap nk e.1 k hk, Ordering.swap_isLE]
                exact hr e he
              exact inRegion_shrink_lo laws hk (hreg e (hmem1 e he)) hswap
            exact ih c1 hszc1 point radius _ _ _ hi1 hregfar hknext
          · rw [if_neg hprune]
            have hnil : c1.entries.filter
                (fun e => decide (m.distance point e.1 ≤ radius)) = [] := by
              rw [List.filter_eq_nil_iff]
              intro e he
              simp only [decide_eq_true_eq]
              intro hdle
              have hswap : (ops.compare nk e.1 k).isLE = true := by
                rw [laws.compare_swap nk e.1 k hk, Ordering.swap_isLE]
                exact hr e he
              have hregf := inRegion_shrink_lo laws hk (hreg e (hmem1 e he)) hswap
              have := laws.aabb_lower point (ops.assign reg_lo nk k) reg_hi e.1 hregf
              exact hprune (le_trans this hdle)
            rw [hnil]
            simp
        by_cases hHere : m.distance point nk ≤ radius
        · simp only [decide_eq_true_eq, if_pos hHere, List.map_cons,
            List.map_append, List.singleton_append, List.cons_append,
            List.nil_append]
          exact List.Perm.cons nv (List.Perm.append hA hB)
        · simp only [decide_eq_true_eq, if_neg hHere, List.map_append,
            List.nil_append]
          exact List.Perm.append hA hB
      · simp only [if_neg hIL]
        have hA := ih c1 hszc1 point radius reg_lo reg_hi
          ((k + 1) % ops.dimension) hi1 (fun e he => hreg e (hmem1 e he)) hknext
        have hB : (if m.distance_to_aabb point reg_lo (ops.assign reg_hi nk k) ≤
              radius then
              nearestRHelp ops m point radius c0 reg_lo (ops.assign reg_hi nk k)
                ((k + 1) % ops.dimension)
            else []).Perm
            ((c0.entries.filter
              (fun e => decide (m.distance point e.1 ≤ radius))).map Prod.snd) := by
          by_cases hprune : m.distance_to_aabb point reg_lo
              (ops.assign reg_hi nk k) ≤ radius
          · rw [if_pos hprune]
            have hregfar : ∀ e ∈ c0.entries,
                inRegion ops e.1 reg_lo (ops.assign reg_hi nk k) := by
              intro e he
              exact inRegion_shrink_hi laws hk (hreg e (hmem0 e he))
                (Ordering.lt_isLE _ (hl e he))
            exact ih c0 hszc0 point radius _ _ _ hi0 hregfar hknext
          · rw [if_neg hprune]
            have hnil : c0.entries.filter
                (fun e => decide (m.distance point e.1 ≤ radius)) = [] := by
              rw [List.filter_eq_nil_iff]
              intro e he
              simp only [decide_eq_true_eq]
              intro hdle
              have hregf := inRegion_shrink_hi laws hk (hreg e (hmem0 e he))
                (Ordering.lt_isLE _ (hl e he))
              have := laws.aabb_lower point reg_lo (ops.assign reg_hi nk k) e.1 hregf
              exact hprune (le_trans this hdle)
            rw [hnil]
            simp
        by_cases hHere : m.distance point nk ≤ radius
        · simp only [decide_eq_true_eq, if_pos hHere, List.map_cons,
            List.map_append, List.singleton_append, List.cons_append,
            List.nil_append]
          exact List.Perm.cons nv
            ((List.Perm.append hA hB).trans List.perm_append_comm)
        · simp only [decide_eq_true_eq, if_neg hHere, List.map_append,
            List.nil_append]
          exact (List.Perm.append hA hB).trans List.perm_append_comm

/-- Claim C1: for every metric whose `distance_to_aabb` lower-bounds the
true distance (together with the remaining metric and `KdKey` laws of the
spec), every insertion sequence and every query point, `nearest(q)`
returns a stored entry whose distance to `q` equals the minimum of
`distance(key, q)` over all inserted keys. -/
theorem kdtree_nearest_returns_min (ops : KdKeyOps K) (m : MetricOps K D)
    (laws : KdLaws ops m) (inserts : List (K × V))
    (q : K) (hne : inserts ≠ []) :
    ∃ kv, (buildTree ops inserts).nearest ops m q = some kv ∧ kv ∈ inserts ∧
      (inserts.map (fun e => m.distance e.1 q)).minimum =
        (m.distance kv.1 q : WithTop D) := by
  have hperm := entries_buildTree ops inserts
  have hinv := kdInv_buildTree ops laws.dim_pos laws.compare_swap inserts
  have hne_root : (buildTree ops inserts).root ≠ Tree.leaf := by
    intro hleaf
    have hentries : (buildTree ops inserts).entries = [] := by
      rw [KdTreeMap.entries, hleaf]; rfl
    rw [hentries] at hperm
    exact hne (hperm.nil_eq.symm)
  obtain ⟨kv, hnear, hmem, hmin⟩ :=
    KdTreeMap.nearest_min ops m laws _ hinv q hne_root
  refine ⟨kv, hnear, hperm.mem_iff.mp hmem, ?_⟩
  rw [List.minimum_eq_coe_iff]
  constructor
  · exact List.mem_map_of_mem _ (hperm.mem_iff.mp hmem)
  · intro b hb
    obtain ⟨e, hemem, rfl⟩ := List.mem_map.mp hb
    exact hmin e (hperm.mem_iff.mpr hemem)

/-- Claim C2: for every metric satisfying the laws, every insertion
sequence, query point and radius, `nearest_within_r(q, r)` yields exactly
the values of the entries at distance at most `r` from the query (as a
permutation, i.e. order-independent set equality counting multiplicity). -/
theorem kdtree_within_r_exact (ops : KdKeyOps K) (m : MetricOps K D)
    (laws : KdLaws ops m) (inserts : List (K × V))
    (q : K) (r : D) :
    ((buildTree ops inserts).nearestWithinR ops m q r).Perm
      ((inserts.filter (fun e => decide (m.distance e.1 q ≤ r))).map
        Prod.snd) := by
  have hperm := entries_buildTree ops inserts
  have hinv := kdInv_buildTree ops laws.dim_pos laws.compare_swap inserts
  have h := nearestRHelp_spec ops m laws (sizeOf (buildTree ops inserts).root)
    (buildTree ops inserts).root (le_refl _) q r ops.lower_bound
    ops.upper_bound 0 hinv (fun e _ => laws.bounds_mem e.1) laws.dim_pos
  have hflip : (fun (e : K × V) => decide (m.distance q e.1 ≤ r)) =
      (fun (e : K × V) => decide (m.distance e.1 q ≤ r)) := by
    funext e
    rw [laws.dist_symm q e.1]
  refine ((List.reverse_perm _).trans h).trans ?_
  rw [hflip]
  exact ((hperm.filter _).map _)

/-- Claim C3: after any insertion sequence the tree satisfies the k-d
ordering invariant (left-subtree keys compare strictly less on the split
axis, right-subtree keys greater-or-equal, axes cycling modulo the
dimension), and an insertion whose key ties with a node key on the split
axis descends into the right subtree, leaving the left child untouched. -/
theorem kdtree_insert_invariant (ops : KdKeyOps K) (hdim : 0 < ops.dimension)
    (hswap : ∀ a b k, k < ops.dimension →
      ops.compare a b k = (ops.compare b a k).swap)
    (inserts : List (K × V)) (key : K) (v : V) (nk : K) (nv : V)
    (c0 c1 : Tree K V) (k : Nat) :
    kdInv ops (buildTree ops inserts).root 0 ∧
      (ops.compare nk key k = .eq →
        Tree.insert ops key v (Tree.node nk nv c0 c1) k =
          Tree.node nk nv c0
            (Tree.insert ops key v c1 ((k + 1) % ops.dimension))) := by
  refine ⟨kdInv_buildTree ops hdim hswap inserts, ?_⟩
  intro hcmp
  have hle : (ops.compare nk key k).isLE = true := by rw [hcmp]; rfl
  simp [Tree.insert, hle]

/-- Claim C5: on the empty map, `nearest` returns `None` and
`nearest_within_r` yields the empty sequence, for every query and radius;
both are total functions of the embedding, so no error is produced. -/
theorem kdtree_empty_queries (ops : KdKeyOps K) (m : MetricOps K D)
    (q : K) (r : D) :
    (KdTreeMap.new : KdTreeMap K V).nearest ops m q = none ∧
      (KdTreeMap.new : KdTreeMap K V).nearestWithinR ops m q r = [] := by
  constructor
  · rfl
  · simp [KdTreeMap.nearestWithinR, KdTreeMap.new, nearestRHelp]

/-- A one-dimensional space with a single configuration, used to witness
the k-d theorems at a concrete instance: the per-axis comparison always
ties, assignment is trivial, and all distances are zero. -/
def unitOps : KdKeyOps Unit where
  dimension := 1
  compare := fun _ _ _ => Ordering.eq
  assign := fun _ _ _ => ()
  lower_bound := ()
  upper_bound := ()

/-- The all-zero metric on the single-configuration space. -/
def unitMetric : MetricOps Unit Nat where
  distance := fun _ _ => 0
  distance_to_aabb := fun _ _ _ => 0

/-- The trivial instance satisfies all the assumed laws. -/
theorem unitLaws : KdLaws unitOps unitMetric where
  dim_pos := Nat.zero_lt_one
  compare_swap := fun _ _ _ _ => rfl
  assign_fst := fun _ _ _ _ _ _ _ => rfl
  assign_snd := fun _ _ _ _ _ _ _ => rfl
  bounds_mem := fun _ _ _ => ⟨rfl, rfl⟩
  dist_nonneg := fun _ _ => Nat.zero_le _
  dist_symm := fun _ _ => rfl
  aabb_lower := fun _ _ _ _ _ => Nat.zero_le _

/-- Witness for C1: the theorem applied at a concrete instance, all
hypotheses discharged. -/
theorem kdtree_nearest_returns_min_witness :
    KdLaws unitOps unitMetric ∧ ([((), 1), ((), 2)] : List (Unit × Nat)) ≠ [] ∧
      ∃ kv, (buildTree unitOps [((), 1), ((), 2)]).nearest unitOps unitMetric
          () = some kv ∧
        kv ∈ ([((), 1), ((), 2)] : List (Unit × Nat)) ∧
        (([((), 1), ((), 2)] : List (Unit × Nat)).map
          (fun e => unitMetric.distance e.1 ())).minimum =
          (unitMetric.distance kv.1 () : WithTop Nat) :=
  ⟨unitLaws, by simp,
    kdtree_nearest_returns_min unitOps unitMetric unitLaws [((), 1), ((), 2)]
      () (by simp)⟩

/-- Witness for C2: the theorem applied at a concrete instance. -/
theorem kdtree_within_r_exact_witness :
    KdLaws unitOps unitMetric ∧
      ((buildTree unitOps [((), 3)]).nearestWithinR unitOps unitMetric ()
        0).Perm
        ((([((), 3)] : List (Unit × Nat)).filter
          (fun e => decide (unitMetric.distance e.1 () ≤ 0))).map Prod.snd) :=
  ⟨unitLaws, kdtree_within_r_exact unitOps unitMetric unitLaws [((), 3)] () 0⟩

/-- Witness for C3: the theorem applied at a concrete instance. -/
theorem kdtree_insert_invariant_witness :
    0 < unitOps.dimension ∧
      kdInv unitOps (buildTree unitOps [((), 4), ((), 5)]).root 0 ∧
      (unitOps.compare () () 0 = .eq →
        Tree.insert unitOps () 6 (Tree.node () 7 Tree.leaf Tree.leaf) 0 =
          Tree.node () 7 Tree.leaf
            (Tree.insert unitOps () 6 Tree.leaf ((0 + 1) % unitOps.dimension))) := by
  refine ⟨Nat.zero_lt_one, ?_⟩
  exact kdtree_insert_invariant unitOps Nat.zero_lt_one (fun _ _ _ _ => rfl)
    [((), 4), ((), 5)] () 6 () 7 Tree.leaf Tree.leaf 0

end NearestSpec

/-! Termination policies of src/rumple/src/time.rs. A timeout value is one
of the built-in policies; `Any` over a tuple of up to ten components (the
`any_tuple!` macro) is modelled by `Tval.any` over a list of child
policies. `Alarm` reads the wall clock and is outside the model. -/

/-- The built-in termination policy values: `Forever`,
`LimitSamples { current, limit }`, `LimitNodes { current, limit }`, and
`Any` of a tuple of child policies. -/
inductive Tval : Type where
  | forever : Tval
  | limitSamples (current limit : Nat) : Tval
  | limitNodes (current limit : Nat) : Tval
  | any (ts : List Tval) : Tval

/-- `LimitSamples::new(n)` / `LimitNodes::new(n)`: current count zero. -/
def Tval.newLimitSamples (n : Nat) : Tval := .limitSamples 0 n

/-- `LimitNodes::new(n)`. -/
def Tval.newLimitNodes (n : Nat) : Tval := .limitNodes 0 n

/-- `Timeout::is_over`: `Forever` never; the limits fire when
`current >= limit`; `Any` is the disjunction over its components
(src/rumple/src/time.rs lines 56-65, 159-163, 185-203). -/
def Tval.isOver : Tval → Bool
  | .forever => false
  | .limitSamples current limit => decide (limit ≤ current)
  | .limitNodes current limit => decide (limit ≤ current)
  | .any ts => ts.attach.any (fun t => t.1.isOver)
  termination_by t => sizeOf t
  decreasing_by
    have h1 := List.sizeOf_lt_of_mem t.2
    have h2 : sizeOf (Tval.any ts) = 1 + sizeOf ts := by simp
    omega

/-- `Timeout::update_sample_count`: `LimitSamples` adds `n` to its
current count, `Any` fans out to every component, and the others keep the
default no-op body of the trait (src/rumple/src/time.rs lines 6, 67-73,
200-202). -/
def Tval.updateSampleCount : Tval → Nat → Tval
  | .forever, _ => .forever
  | .limitSamples current limit, n => .limitSamples (current + n) limit
  | .limitNodes current limit, _ => .limitNodes current limit
  | .any ts, n => .any (ts.attach.map (fun t => t.1.updateSampleCount n))
  termination_by t _ => sizeOf t
  decreasing_by
    have h1 := List.sizeOf_lt_of_mem t.2
    have h2 : sizeOf (Tval.any ts) = 1 + sizeOf ts := by simp
    omega

/-- `Timeout::update_node_count`: `LimitNodes` adds `n` to its current
count, `Any` fans out to every component, and the others keep the default
no-op body of the trait (src/rumple/src/time.rs lines 10, 76-82,
190-192). -/
def Tval.updateNodeCount : Tval → Nat → Tval
  | .forever, _ => .forever
  | .limitSamples current limit, _ => .limitSamples current limit
  | .limitNodes current limit, n => .limitNodes (current + n) limit
  | .any ts, n => .any (ts.attach.map (fun t => t.1.updateNodeCount n))
  termination_by t _ => sizeOf t
  decreasing_by
    have h1 := List.sizeOf_lt_of_mem t.2
    have h2 : sizeOf (Tval.any ts) = 1 + sizeOf ts := by simp
    omega

/-- One telemetry update delivered to a timeout: either a sample-count or
a node-count increment. -/
inductive TimeoutEvent : Type where
  | sample (n : Nat) : TimeoutEvent
  | node (n : Nat) : TimeoutEvent

/-- Deliver one event to a timeout value. -/
def Tval.applyEvent (t : Tval) : TimeoutEvent → Tval
  | .sample n => t.updateSampleCount n
  | .node n => t.updateNodeCount n

/-- Deliver a history of events, oldest first. -/
def Tval.applyEvents (t : Tval) (evs : List TimeoutEvent) : Tval :=
  evs.foldl Tval.applyEvent t

/-- Sum of the sample-count increments of a history. -/
def sampleSum : List TimeoutEvent → Nat
  | [] => 0
  | .sample n :: r => n + sampleSum r
  | .node _ :: r => sampleSum r

/-- Sum of the node-count increments of a history. -/
def nodeSum : List TimeoutEvent → Nat
  | [] => 0
  | .sample _ :: r => nodeSum r
  | .node n :: r => n + nodeSum r

theorem Tval.applyEvents_forever (evs : List TimeoutEvent) :
    Tval.applyEvents .forever evs = .forever := by
  induction evs with
  | nil => rfl
  | cons e r ih =>
    cases e <;> simpa [Tval.applyEvents, Tval.applyEvent, Tval.updateSampleCount,
      Tval.updateNodeCount] using ih

theorem Tval.applyEvents_limitSamples (c l : Nat) (evs : List TimeoutEvent) :
    Tval.applyEvents (.limitSamples c l) evs =
      .limitSamples (c + sampleSum evs) l := by
  induction evs generalizing c with
  | nil => simp [Tval.applyEvents, sampleSum]
  | cons e r ih =>
    cases e with
    | sample n =>
      simp only [Tval.applyEvents, List.foldl_cons, Tval.applyEvent,
        Tval.updateSampleCount, sampleSum]
      rw [show List.foldl Tval.applyEvent (Tval.limitSamples (c + n) l) r =
        Tval.applyEvents (Tval.limitSamples (c + n) l) r from rfl, ih]
      ring_nf
    | node n =>
      simp only [Tval.applyEvents, List.foldl_cons, Tval.applyEvent,
        Tval.updateNodeCount, sampleSum]
      exact ih c

theorem Tval.applyEvents_limitNodes (c l : Nat) (evs : List TimeoutEvent) :
    Tval.applyEvents (.limitNodes c l) evs =
      .limitNodes (c + nodeSum evs) l := by
  induction evs generalizing c with
  | nil => simp [Tval.applyEvents, nodeSum]
  | cons e r ih =>
    cases e with
    | sample n =>
      simp only [Tval.applyEvents, List.foldl_cons, Tval.applyEvent,
        Tval.updateSampleCount, nodeSum]
      exact ih c
    | node n =>
      simp only [Tval.applyEvents, List.foldl_cons, Tval.applyEvent,
        Tval.updateNodeCount, nodeSum]
      rw [show List.foldl Tval.applyEvent (Tval.limitNodes (c + n) l) r =
        Tval.applyEvents (Tval.limitNodes (c + n) l) r from rfl, ih]
      ring_nf

/-- Claim C6: the built-in termination policies follow the spec table for
every update history: `Forever` is never over; `LimitSamples(N)` is over
exactly when the sample increments sum to at least `N`; `LimitNodes(N)`
exactly when the node increments sum to at least `N`; and `Any` of a tuple
is the disjunction of its components with both updates fanned out to every
component. -/
theorem timeout_policies_spec :
    (∀ evs : List TimeoutEvent, (Tval.applyEvents .forever evs).isOver = false) ∧
    (∀ (N : Nat) (evs : List TimeoutEvent),
      ((Tval.applyEvents (Tval.newLimitSamples N) evs).isOver = true ↔
        N ≤ sampleSum evs)) ∧
    (∀ (N : Nat) (evs : List TimeoutEvent),
      ((Tval.applyEvents (Tval.newLimitNodes N) evs).isOver = true ↔
        N ≤ nodeSum evs)) ∧
    (∀ ts : List Tval, (Tval.any ts).isOver = ts.any Tval.isOver) ∧
    (∀ (ts : List Tval) (n : Nat),
      (Tval.any ts).updateSampleCount n =
        .any (ts.map (fun t => t.updateSampleCount n))) ∧
    (∀ (ts : List Tval) (n : Nat),
      (Tval.any ts).updateNodeCount n =
        .any (ts.map (fun t => t.updateNodeCount n))) := by
  refine ⟨?_, ?_, ?_, ?_, ?_, ?_⟩
  · intro evs
    rw [Tval.applyEvents_forever]
    simp [Tval.isOver]
  · intro N evs
    rw [Tval.newLimitSamples, Tval.applyEvents_limitSamples]
    simp [Tval.isOver]
  · intro N evs
    rw [Tval.newLimitNodes, Tval.applyEvents_limitNodes]
    simp [Tval.isOver]
  · intro ts
    simp only [Tval.isOver]
    refine Bool.eq_iff_iff.mpr ?_
    simp only [List.any_eq_true, List.mem_attach, true_and, Subtype.exists,
      exists_prop]
  · intro ts n
    simp [Tval.updateSampleCount, List.attach_map_val]
  · intro ts n
    simp [Tval.updateNodeCount, List.attach_map_val]

/-- Claim C10: `LimitSamples` ignores node-count updates and `LimitNodes`
ignores sample-count updates, both as a single update (state and hence
`is_over` unchanged) and over a whole history, where only the matching
increments drive the counter. -/
theorem timeout_limits_frame :
    (∀ c l n, (Tval.limitSamples c l).updateNodeCount n = .limitSamples c l) ∧
    (∀ c l n, (Tval.limitNodes c l).updateSampleCount n = .limitNodes c l) ∧
    (∀ c l n, ((Tval.limitSamples c l).updateNodeCount n).isOver =
      (Tval.limitSamples c l).isOver) ∧
    (∀ c l n, ((Tval.limitNodes c l).updateSampleCount n).isOver =
      (Tval.limitNodes c l).isOver) ∧
    (∀ c l evs, (∀ e ∈ evs, ∀ n, e ≠ TimeoutEvent.sample n) →
      Tval.applyEvents (.limitSamples c l) evs = .limitSamples c l) ∧
    (∀ c l evs, (∀ e ∈ evs, ∀ n, e ≠ TimeoutEvent.node n) →
      Tval.applyEvents (.limitNodes c l) evs = .limitNodes c l) := by
  refine ⟨fun _ _ _ => by simp [Tval.updateNodeCount],
    fun _ _ _ => by simp [Tval.updateSampleCount],
    fun _ _ _ => by simp [Tval.updateNodeCount],
    fun _ _ _ => by simp [Tval.updateSampleCount], ?_, ?_⟩
  · intro c l evs hno
    rw [Tval.applyEvents_limitSamples]
    have hz : sampleSum evs = 0 := by
      induction evs with
      | nil => rfl
      | cons e r ih =>
        cases e with
        | sample n => exact absurd rfl (hno _ (List.mem_cons_self _ _) n)
        | node n =>
          simp only [sampleSum]
          exact ih (fun e he n => hno e (List.mem_cons_of_mem _ he) n)
    rw [hz, Nat.add_zero]
  · intro c l evs hno
    rw [Tval.applyEvents_limitNodes]
    have hz : nodeSum evs = 0 := by
      induction evs with
      | nil => rfl
      | cons e r ih =>
        cases e with
        | sample n =>
          simp only [nodeSum]
          exact ih (fun e he n => hno e (List.mem_cons_of_mem _ he) n)
        | node n => exact absurd rfl (hno _ (List.mem_cons_self _ _) n)
    rw [hz, Nat.add_zero]



/-! Collision worlds of src/rumple/src/env/world2d.rs and
src/src/env/world3d.rs. Coordinates (`T: FloatCore`) are modelled by
rationals. A `debug_assert!` that fails is modelled by returning `none`
(for `collides_rect`, by a dedicated `PanicKind.debugAssert` error);
operations of the source that perform no assertion always return `some`.
Rust clamp of `x` into `[lo, hi]` is modelled as `min (max x lo) hi`. -/

/-- `Aabb<2, T>`: `los` and `his` corners of a 2-D axis-aligned box. -/
structure Aabb2 where
  los : ℚ × ℚ
  his : ℚ × ℚ
deriving DecidableEq

/-- `Ball<2, T>`: centre and radius. -/
structure Ball2 where
  pos : ℚ × ℚ
  r : ℚ
deriving DecidableEq

/-- `World2d`: lists of axis-aligned boxes and balls. -/
structure World2d where
  aabbs : List Aabb2
  balls : List Ball2
deriving DecidableEq

/-- `Aabb<3, T>`. -/
structure Aabb3 where
  los : ℚ × ℚ × ℚ
  his : ℚ × ℚ × ℚ
deriving DecidableEq

/-- `Ball<3, T>`. -/
structure Ball3 where
  pos : ℚ × ℚ × ℚ
  r : ℚ
deriving DecidableEq

/-- `World3d`. -/
structure World3d where
  balls : List Ball3
  aabbs : List Aabb3
deriving DecidableEq

/-- `World2d::add_ball` (world2d.rs lines 70-73): debug-asserts a
non-negative radius, then pushes the ball. -/
def World2d.add_ball (w : World2d) (x y r : ℚ) : Option World2d :=
  if 0 ≤ r then some { w with balls := w.balls ++ [⟨(x, y), r⟩] } else none

/-- `World2d::add_aabb` (world2d.rs lines 75-82): debug-asserts
non-negative width and height, then pushes an `Aabb` whose fields are
exactly those of the source: `los: [xl, yl], his: [xl, yl]`. -/
def World2d.add_aabb (w : World2d) (xl yl xh yh : ℚ) : Option World2d :=
  if 0 ≤ xh - xl ∧ 0 ≤ yh - yl then
    some { w with aabbs := w.aabbs ++ [⟨(xl, yl), (xl, yl)⟩] }
  else none

/-- `World2d::collides_ball` (world2d.rs lines 32-55): debug-asserts a
non-negative radius, then tests the ball against each box (by clamping the
centre into the box) and each ball (by comparing the centre distance with
the sum of radii). -/
def World2d.collides_ball (w : World2d) (x y r : ℚ) : Option Bool :=
  if 0 ≤ r then
    some (w.aabbs.any (fun a =>
        let nx := min (max x a.los.1) a.his.1
        let ny := min (max y a.los.2) a.his.2
        decide ((nx - x) ^ 2 + (ny - y) ^ 2 ≤ r ^ 2)) ||
      w.balls.any (fun b =>
        let xdiff := b.pos.1 - x
        let ydiff := b.pos.2 - y
        let rpsq := b.r + r
        decide (xdiff * xdiff + ydiff * ydiff ≤ rpsq * rpsq)))
  else none

/-- The ball-versus-rectangle predicate of `World2d::collides_rect`
(world2d.rs lines 126-146): transform the ball centre into the rectangle
frame by the inverse rotation, clamp into the half-extents, and compare
the residual with the ball radius. The trigonometric values of the angle,
`cos theta` and `sin theta`, are taken as arguments. -/
def ballRectCollides (x y cosT sinT half_w half_h : ℚ) (b : Ball2) : Bool :=
  let delta_x := b.pos.1 - x
  let delta_y := b.pos.2 - y
  let x_trans := delta_x * cosT + delta_y * sinT
  let y_trans := -delta_x * sinT + delta_y * cosT
  let x_clamp := min (max x_trans (-half_w)) half_w
  let y_clamp := min (max y_trans (-half_h)) half_h
  let x_diff := x_clamp - x_trans
  let y_diff := y_clamp - y_trans
  decide (x_diff * x_diff + y_diff * y_diff ≤ b.r * b.r)

/-- The two ways a call of `collides_rect` can panic: a failed
`debug_assert!` on the half-extents, or the `todo!` placeholder in the
AABB arm. -/
inductive PanicKind : Type where
  | debugAssert : PanicKind
  | todoUnimplemented : PanicKind
deriving DecidableEq

/-- `World2d::collides_rect` (world2d.rs lines 115-150): debug-asserts
non-negative half-extents, tests every ball, and then evaluates the item
check of the boxes, which is the placeholder
`self.aabbs.iter().any(|_| todo!(..))`: with at least one stored box and
no colliding ball the placeholder is reached and the call panics instead
of returning. -/
def World2d.collides_rect (w : World2d) (x y cosT sinT half_w half_h : ℚ) :
    Except PanicKind Bool :=
  if 0 ≤ half_w ∧ 0 ≤ half_h then
    if w.balls.any (ballRectCollides x y cosT sinT half_w half_h) then
      .ok true
    else if w.aabbs.isEmpty then .ok false
    else .error .todoUnimplemented
  else .error .debugAssert

/-- `World3d::add_ball` (world3d.rs lines 23-25): no assertion in the
source, so the push always succeeds. -/
def World3d.add_ball (w : World3d) (x y z r : ℚ) : Option World3d :=
  some { w with balls := w.balls ++ [⟨(x, y, z), r⟩] }

/-- `World3d::add_aabb` (world3d.rs lines 27-32): no assertion in the
source; both corners are stored as given. -/
def World3d.add_aabb (w : World3d) (xl yl zl xh yh zh : ℚ) : Option World3d :=
  some { w with aabbs := w.aabbs ++ [⟨(xl, yl, zl), (xh, yh, zh)⟩] }

/-- `World3d::collides_ball` (world3d.rs lines 34-82): no assertion in the
source; tests every ball by summed radii and every box by per-axis
residuals. -/
def World3d.collides_ball (w : World3d) (x y z r : ℚ) : Option Bool :=
  let rsq := r * r
  some (w.balls.any (fun b =>
      let xdiff := b.pos.1 - x
      let ydiff := b.pos.2.1 - y
      let zdiff := b.pos.2.2 - z
      let rplus := b.r + r
      decide (xdiff * xdiff + ydiff * ydiff + zdiff * zdiff ≤ rplus * rplus)) ||
    w.aabbs.any (fun a =>
      let xdiff := if x < a.los.1 then a.los.1 - x
        else if x > a.his.1 then x - a.his.1 else 0
      let ydiff := if y < a.los.2.1 then a.los.2.1 - y
        else if y > a.his.2.1 then y - a.his.2.1 else 0
      let zdiff := if z < a.los.2.2 then a.los.2.2 - z
        else if z > a.his.2.2 then z - a.his.2.2 else 0
      decide (xdiff * xdiff + ydiff * ydiff + zdiff * zdiff ≤ rsq)))

/-- Claim C7: a successful `World2d::add_aabb(xl, yl, xh, yh)` stores a
degenerate box with both corners equal to the low corner `[xl, yl]`,
rather than one spanning to `[xh, yh]`. -/
theorem world2d_add_aabb_degenerate (w : World2d) (xl yl xh yh : ℚ)
    (hw : 0 ≤ xh - xl) (hh : 0 ≤ yh - yl) :
    World2d.add_aabb w xl yl xh yh =
      some { w with aabbs := w.aabbs ++ [⟨(xl, yl), (xl, yl)⟩] } := by
  rw [World2d.add_aabb, if_pos ⟨hw, hh⟩]

/-- Witness for C7 at a concrete call. -/
theorem world2d_add_aabb_degenerate_witness :
    (0 : ℚ) ≤ 2 - 0 ∧ (0 : ℚ) ≤ 3 - 1 ∧
      World2d.add_aabb ⟨[], []⟩ 0 1 2 3 =
        some ⟨[⟨(0, 1), (0, 1)⟩], []⟩ :=
  ⟨by norm_num, by norm_num,
    world2d_add_aabb_degenerate ⟨[], []⟩ 0 1 2 3 (by norm_num) (by norm_num)⟩

/-- Counterexample to C8 as stated: `World3d::add_ball` accepts a negative
ball radius without any debug assertion, storing the ball unchanged. -/
theorem world3d_add_ball_no_assert_cex :
    World3d.add_ball ⟨[], []⟩ 0 0 0 (-1) =
      some ⟨[⟨(0, 0, 0), -1⟩], []⟩ := rfl

/-- Claim C8 as amended: `World2d` debug-checks the ball radius on
`add_ball` and `collides_ball` and the box corners on `add_aabb`, but
`World3d` performs no debug checks: its `add_ball`, `add_aabb` and
`collides_ball` succeed on every input, including negative radii and
inverted boxes. -/
theorem world_debug_checks :
    (∀ (w : World2d) (x y r : ℚ),
      (World2d.add_ball w x y r).isSome = true ↔ 0 ≤ r) ∧
    (∀ (w : World2d) (x y r : ℚ),
      (World2d.collides_ball w x y r).isSome = true ↔ 0 ≤ r) ∧
    (∀ (w : World2d) (xl yl xh yh : ℚ),
      (World2d.add_aabb w xl yl xh yh).isSome = true ↔
        (0 ≤ xh - xl ∧ 0 ≤ yh - yl)) ∧
    (∀ (w : World3d) (x y z r : ℚ),
      (World3d.add_ball w x y z r).isSome = true) ∧
    (∀ (w : World3d) (xl yl zl xh yh zh : ℚ),
      (World3d.add_aabb w xl yl zl xh yh zh).isSome = true) ∧
    (∀ (w : World3d) (x y z r : ℚ),
      (World3d.collides_ball w x y z r).isSome = true) := by
  refine ⟨?_, ?_, ?_, fun _ _ _ _ _ => rfl, fun _ _ _ _ _ _ _ => rfl,
    fun _ _ _ _ _ => rfl⟩
  · intro w x y r
    rw [World2d.add_ball]
    split_ifs with h
    · exact iff_of_true (by rw [Option.isSome_some]) h
    · exact iff_of_false (by rw [Option.isSome_none]; exact Bool.noConfusion) h
  · intro w x y r
    by_cases h : (0 : ℚ) ≤ r
    · rw [World2d.collides_ball, if_pos h]
      exact iff_of_true (by rw [Option.isSome_some]) h
    · rw [World2d.collides_ball, if_neg h]
      exact iff_of_false (by rw [Option.isSome_none]; exact Bool.noConfusion) h
  · intro w xl yl xh yh
    rw [World2d.add_aabb]
    split_ifs with h
    · exact iff_of_true (by rw [Option.isSome_some]) h
    · exact iff_of_false (by rw [Option.isSome_none]; exact Bool.noConfusion) h

/-- Claim C9: with at least one stored AABB, any `collides_rect` call that
passes the half-extent debug assertions and in which no ball obstacle
collides with the rectangle reaches the unimplemented AABB arm and panics
instead of returning a result. -/
theorem world2d_collides_rect_todo (w : World2d) (x y cosT sinT hw hh : ℚ)
    (h1 : 0 ≤ hw) (h2 : 0 ≤ hh)
    (hnoball : w.balls.any (ballRectCollides x y cosT sinT hw hh) = false)
    (haabb : w.aabbs ≠ []) :
    World2d.collides_rect w x y cosT sinT hw hh =
      .error .todoUnimplemented := by
  rw [World2d.collides_rect, if_pos ⟨h1, h2⟩, hnoball]
  simp only [Bool.false_eq_true, if_false]
  rw [if_neg]
  simp [List.isEmpty_iff, haabb]

/-- Witness for C9 at a concrete call: one box, no balls. -/
theorem world2d_collides_rect_todo_witness :
    (0 : ℚ) ≤ 1 ∧ (0 : ℚ) ≤ 1 ∧
      (World2d.balls ⟨[⟨(0, 0), (1, 1)⟩], []⟩).any
        (ballRectCollides 0 0 1 0 1 1) = false ∧
      World2d.collides_rect ⟨[⟨(0, 0), (1, 1)⟩], []⟩ 0 0 1 0 1 1 =
        .error .todoUnimplemented :=
  ⟨by norm_num, by norm_num, rfl,
    world2d_collides_rect_todo ⟨[⟨(0, 0), (1, 1)⟩], []⟩ 0 0 1 0 1 1
      (by norm_num) (by norm_num) rfl (by simp)⟩


/-! The RRT planner. The `geo` module (`Rrt::new`, `Rrt::grow_toward`) is
not among the provided source files; only its callers in
tests/simple_rrt.rs and examples/src/bin/simple_rrt.rs are. The planner
loop below is therefore modelled from the spec (section 4.3), with the
randomness drawn from an explicit stream of (Bernoulli draw, sampler draw)
pairs: the loop fails when the stream is exhausted, which only restricts
the executions considered and leaves every returned path intact. -/

/-- The `Timeout` capability used by the planner: polled once per
iteration, fed a sample increment each iteration and a node increment on
each successful insertion. -/
structure TimeoutOps (T : Type) where
  is_over : T → Bool
  update_sample_count : T → Nat → T
  update_node_count : T → Nat → T

variable {C T : Type}

/-- Modelled from the spec: the nearest-map query of the planner (spec
section 4.3 step 3), as the index and configuration of a stored node with
minimal distance to the target (first minimum wins). -/
def nearestNode [LinearOrder D] (dist : C → C → D) (target : C)
    (nodes : List (C × Option Nat)) : Nat × C :=
  match nodes.enum with
  | [] => (0, target)
  | x :: rest =>
    let best := rest.foldl
      (fun b c => if dist c.2.1 target < dist b.2.1 target then c else b) x
    (best.1, best.2.1)

/-- Modelled from the spec: path extraction (spec section 4.3 step 7),
tracing parent links from a node index back to the root; the fuel bounds
the walk by the number of stored nodes. -/
def tracePath (nodes : List (C × Option Nat)) : Nat → Nat → List C
  | 0, _ => []
  | fuel + 1, i =>
    match nodes[i]? with
    | none => []
    | some (c, none) => [c]
    | some (c, some p) => c :: tracePath nodes fuel p

/-- Modelled from the spec: the per-iteration protocol of
`Rrt::grow_toward` (spec section 4.3). Each iteration polls the timeout,
draws the Bernoulli goal bias and, when it does not fire, the sampler
draw; finds the nearest stored node to the target; steers from it by
`interpolate` (`Sum.inl` models `Ok`, arrived; `Sum.inr` models `Err`, a
bounded step); validates the new configuration and the transition,
dropping the iteration on failure; appends the new node with its parent
index; and, when the interpolation arrived and the target was the goal
configuration, returns the reversed parent trace from the new node. -/
def growLoop [LinearOrder D] [DecidableEq C] (dist : C → C → D)
    (interp : C → C → D → C ⊕ C) (validCfg : C → Bool)
    (validTrans : C → C → Bool) (tops : TimeoutOps T) (goal : C) (radius : D) :
    List (Bool × C) → T → List (C × Option Nat) → Option (List C)
  | [], _, _ => none
  | (b, samp) :: draws, tmo, nodes =>
    if tops.is_over tmo then none
    else
      let target := if b then goal else samp
      let tmo2 := tops.update_sample_count tmo 1
      let pr := nearestNode dist target nodes
      let step := interp pr.2 target radius
      let newCfg := step.elim id id
      if validCfg newCfg && validTrans pr.2 newCfg then
        let nodes2 := nodes ++ [(newCfg, some pr.1)]
        let tmo3 := tops.update_node_count tmo2 1
        if (match step with | .inl _ => true | .inr _ => false) &&
            decide (target = goal) then
          some (tracePath nodes2 nodes2.length (nodes2.length - 1)).reverse
        else growLoop dist interp validCfg validTrans tops goal radius draws
          tmo3 nodes2
      else growLoop dist interp validCfg validTrans tops goal radius draws
        tmo2 nodes

/-- Modelled from the spec: `Rrt::grow_toward` started from a planner that
holds only the root configuration (spec sections 4.3 and 2). -/
def growToward [LinearOrder D] [DecidableEq C] (dist : C → C → D)
    (interp : C → C → D → C ⊕ C) (validCfg : C → Bool)
    (validTrans : C → C → Bool) (tops : TimeoutOps T) (goal : C) (radius : D)
    (root : C) (draws : List (Bool × C)) (tmo : T) : Option (List C) :=
  growLoop dist interp validCfg validTrans tops goal radius draws tmo
    [(root, none)]

/-- Every stored parent link spans a distance of at most `radius`. -/
@[reducible] def ParentOk [LinearOrder D] (dist : C → C → D) (radius : D)
    (nodes : List (C × Option Nat)) : Prop :=
  ∀ (i : Nat) (pr : C × Option Nat), nodes[i]? = some pr →
    ∀ p, pr.2 = some p →
      ∃ pc, nodes[p]? = some pc ∧ dist pc.1 pr.1 ≤ radius

theorem foldl_nearest_mem [LinearOrder D] (dist : C → C → D) (target : C) :
    ∀ (rest : List (Nat × (C × Option Nat))) (x : Nat × (C × Option Nat)),
      rest.foldl
        (fun b c => if dist c.2.1 target < dist b.2.1 target then c else b) x ∈
        x :: rest := by
  intro rest
  induction rest with
  | nil => intro x; simp
  | cons c rest ih =>
    intro x
    rw [List.foldl_cons]
    by_cases hc : dist c.2.1 target < dist x.2.1 target
    · rw [if_pos hc]
      exact List.mem_cons_of_mem x (ih c)
    · rw [if_neg hc]
      rcases List.mem_cons.mp (ih x) with h | h
      · rw [h]
        exact List.mem_cons_self x _
      · exact List.mem_cons_of_mem x (List.mem_cons_of_mem c h)

/-- The nearest-node query returns a valid index whose stored
configuration is the returned one. -/
theorem nearestNode_valid [LinearOrder D] (dist : C → C → D) (target : C)
    (nodes : List (C × Option Nat)) (hne : nodes ≠ []) :
    ∃ op, nodes[(nearestNode dist target nodes).1]? =
      some ((nearestNode dist target nodes).2, op) := by
  rw [nearestNode]
  rcases henum : nodes.enum with _ | ⟨x, rest⟩
  · exact absurd (List.enum_eq_nil.mp henum) hne
  · have hmem : rest.foldl
        (fun b c => if dist c.2.1 target < dist b.2.1 target then c else b) x ∈
        x :: rest := foldl_nearest_mem dist target rest x
    rw [← henum] at hmem
    have hget := List.mk_mem_enum_iff_getElem?.mp
      (show ((rest.foldl
        (fun b c => if dist c.2.1 target < dist b.2.1 target then c else b)
        x).1, (rest.foldl
        (fun b c => if dist c.2.1 target < dist b.2.1 target then c else b)
        x).2) ∈ nodes.enum from hmem)
    exact ⟨_, hget⟩

/-- Appending a node whose parent is a valid index at distance within
`radius` preserves `ParentOk`. -/
theorem ParentOk_append [LinearOrder D] (dist : C → C → D) (radius : D)
    (nodes : List (C × Option Nat)) (hPO : ParentOk dist radius nodes)
    (newCfg : C) (ni : Nat) (pc : C × Option Nat)
    (hN : nodes[ni]? = some pc) (hd : dist pc.1 newCfg ≤ radius) :
    ParentOk dist radius (nodes ++ [(newCfg, some ni)]) := by
  intro i pr hget p hp
  rcases Nat.lt_or_ge i nodes.length with hi | hi
  · rw [List.getElem?_append_left hi] at hget
    obtain ⟨pc2, hgp, hd2⟩ := hPO i pr hget p hp
    obtain ⟨hplen, _⟩ := List.getElem?_eq_some_iff.mp hgp
    exact ⟨pc2, by rw [List.getElem?_append_left hplen]; exact hgp, hd2⟩
  · have hi2 : i = nodes.length := by
      obtain ⟨hlen, _⟩ := List.getElem?_eq_some_iff.mp hget
      simp only [List.length_append, List.length_cons, List.length_nil] at hlen
      omega
    subst hi2
    rw [List.getElem?_append_right (le_refl _), Nat.sub_self] at hget
    simp only [List.getElem?_cons_zero, Option.some.injEq] at hget
    rw [← hget] at hp
    simp only [Option.some.injEq] at hp
    obtain ⟨hN1, _⟩ := List.getElem?_eq_some_iff.mp hN
    refine ⟨pc, ?_, ?_⟩
    · rw [← hp, List.getElem?_append_left hN1]
      exact hN
    · rw [← hget]
      exact hd

/-- The trace of parent links is a chain whose steps each span at most
`radius`, stated for the list before reversal: each element is within
`radius` of its predecessor in the trace. -/
theorem tracePath_chain [LinearOrder D] (dist : C → C → D) (radius : D)
    (nodes : List (C × Option Nat)) (hPO : ParentOk dist radius nodes) :
    ∀ (fuel i : Nat),
      (tracePath nodes fuel i).Chain' (fun a b => dist b a ≤ radius) := by
  intro fuel
  induction fuel with
  | zero => intro i; simp [tracePath]
  | succ fuel ih =>
    intro i
    rw [tracePath]
    rcases hget : nodes[i]? with _ | ⟨c, cp⟩
    · simp
    · rcases cp with _ | p
      · simp
      · simp only []
        rw [List.chain'_cons']
        refine ⟨?_, ih p⟩
        intro b hb
        obtain ⟨pc, hgp, hd⟩ := hPO i (c, some p) hget p rfl
        cases fuel with
        | zero => simp [tracePath] at hb
        | succ fuel2 =>
          rw [tracePath, hgp] at hb
          rcases pc with ⟨pcc, pcp⟩
          rcases pcp with _ | q <;> simp only [Option.mem_def,
            List.head?_cons, Option.some.injEq] at hb <;> rw [← hb] <;>
            exact hd

/-- The planner loop preserves `ParentOk` across insertions, and a
returned path is the reversed parent trace of the final node list, hence a
chain of transitions each within `radius`. -/
theorem growLoop_chain [LinearOrder D] [DecidableEq C] (dist : C → C → D)
    (interp : C → C → D → C ⊕ C) (validCfg : C → Bool)
    (validTrans : C → C → Bool) (tops : TimeoutOps T) (goal : C) (radius : D)
    (hinterp : ∀ a b, dist a ((interp a b radius).elim id id) ≤ radius) :
    ∀ (draws : List (Bool × C)) (tmo : T) (nodes : List (C × Option Nat))
      (path : List C), nodes ≠ [] → ParentOk dist radius nodes →
      growLoop dist interp validCfg validTrans tops goal radius draws tmo
        nodes = some path →
      path.Chain' (fun a b => dist a b ≤ radius) := by
  intro draws
  induction draws with
  | nil => intro tmo nodes path _ _ hres; exact Option.noConfusion hres
  | cons d draws ih =>
    intro tmo nodes path hne hPO hres
    rcases d with ⟨b, samp⟩
    rw [growLoop] at hres
    by_cases hover : tops.is_over tmo = true
    · rw [if_pos hover] at hres
      exact Option.noConfusion hres
    · rw [if_neg hover] at hres
      dsimp only at hres
      obtain ⟨tgt, htg⟩ : ∃ tgt, (if b = true then goal else samp) = tgt :=
        ⟨_, rfl⟩
      rw [htg] at hres
      obtain ⟨op, hN⟩ := nearestNode_valid dist tgt nodes hne
      have hPO2 := ParentOk_append dist radius nodes hPO
        ((interp (nearestNode dist tgt nodes).2 tgt radius).elim id id)
        (nearestNode dist tgt nodes).1
        ((nearestNode dist tgt nodes).2, op) hN
        (hinterp _ _)
      split at hres
      · split at hres
        · injection hres with hres
          rw [← hres, List.chain'_reverse]
          exact tracePath_chain dist radius _ hPO2 _ _
        · exact ih _ _ _ (by simp) hPO2 hres
      · exact ih _ _ _ hne hPO hres

/-- Claim C4 (spec-modelled): every path returned by `grow_toward`
satisfies the transition bound: each consecutive pair of configurations in
the returned path is within the growth radius, provided `interpolate`
meets its contract of returning a configuration within `radius` of its
starting configuration. -/
theorem rrt_transition_bound [LinearOrder D] [DecidableEq C]
    (dist : C → C → D) (interp : C → C → D → C ⊕ C) (validCfg : C → Bool)
    (validTrans : C → C → Bool) (tops : TimeoutOps T) (goal : C) (radius : D)
    (root : C) (draws : List (Bool × C)) (tmo : T) (path : List C)
    (hinterp : ∀ a b, dist a ((interp a b radius).elim id id) ≤ radius)
    (hres : growToward dist interp validCfg validTrans tops goal radius root
      draws tmo = some path) :
    path.Chain' (fun a b => dist a b ≤ radius) := by
  refine growLoop_chain dist interp validCfg validTrans tops goal radius
    hinterp draws tmo [(root, none)] path (by simp) ?_ hres
  intro i pr hget p hp
  rcases i with _ | i
  · simp only [List.getElem?_cons_zero, Option.some.injEq] at hget
    rw [← hget] at hp
    exact Option.noConfusion hp
  · simp at hget

/-- Concrete timeout used by the C4 witness: never over, stateless. -/
def uTops : TimeoutOps Unit :=
  ⟨fun _ => false, fun u _ => u, fun u _ => u⟩

/-- Concrete zero metric on naturals used by the C4 witness. -/
def uDist : Nat → Nat → Nat := fun _ _ => 0

/-- Concrete interpolation used by the C4 witness: always arrives. -/
def uInterp : Nat → Nat → Nat → Nat ⊕ Nat := fun _ b _ => Sum.inl b

/-- Witness for C4: the theorem applied to a concrete planner run that
returns the path `[0, 0]`. -/
theorem rrt_transition_bound_witness :
    (∀ a b : Nat, uDist a ((uInterp a b 0).elim id id) ≤ 0) ∧
      growToward uDist uInterp (fun _ => true) (fun _ _ => true) uTops 0 0 0
        [(true, 0)] () = some [0, 0] ∧
      List.Chain' (fun a b : Nat => uDist a b ≤ 0) [0, 0] :=
  ⟨fun _ _ => Nat.le_refl 0, rfl,
    rrt_transition_bound uDist uInterp (fun _ => true) (fun _ _ => true) uTops
      0 0 0 [(true, 0)] () [0, 0] (fun _ _ => Nat.le_refl 0) rfl⟩

end Rumple
